import Mathlib

/-!
Verification of the migration runner of minhna/meteor-migrations.

The repository ships the server implementation in migrations_server.js;
only its test suite (migrations_tests.js) and a type declaration file are
available here, so the runner is modelled from the specification
(spec.md, sections 3, 4, 6 and 7), with the test suite used as the
authority wherever it pins down a behaviour.  The model is a shallow
embedding: migration bodies are represented by a small inductive of
effects (succeed, raise an error, re-entrantly call migrateTo), and the
runner is an executable function from a registry, a control record and a
version spec to an outcome that records the final control record, the
ordered list of migration-function invocations, the number of lock
acquisition attempts, and the error, if any.
-/

namespace Migrations

/-- Direction of a migration step: the forward function or the backward
function of a definition. -/
inductive Direction where
  | up
  | down
deriving DecidableEq

/-- Modelled from the spec: the parsed form of the version specification
accepted by migrateTo (section 4.2) - the literal latest, a bare version
number (possibly given as a numeric string), or a compound
version-comma-rerun form. -/
inductive VersionSpec where
  | latest
  | num (v : Nat)
  | rerunAt (v : Nat)
deriving DecidableEq

/-- Behaviour of one migration body when it is invoked: it can return
normally, raise an error with a message, or re-entrantly call migrateTo
with some spec before returning. -/
inductive Act where
  | ok
  | throwErr (msg : String)
  | reenter (s : VersionSpec)
deriving DecidableEq

/-- Value of the up or down field of a migration definition: absent,
present but not a callable value (for example a string), or a callable
body with the given behaviour. -/
inductive FnField where
  | missing
  | notFun
  | fn (a : Act)
deriving DecidableEq

/-- Modelled from the spec: a MigrationDefinition (section 3) - a unique
positive integer version, an optional name, a required callable up and an
optional down. -/
structure MigrationDefinition where
  version : Nat
  name : Option String
  up : FnField
  down : FnField
deriving DecidableEq

/-- Modelled from the spec: the ControlRecord (section 3) - the single
persisted state: the highest fully applied version and the lock flag. -/
structure Control where
  version : Nat
  locked : Bool
deriving DecidableEq

/-- One invocation event: which directional function was called and the
MigrationDefinition value that was passed to it as its argument. -/
structure Ev where
  dir : Direction
  arg : MigrationDefinition
deriving DecidableEq

/-- Error taxonomy of the spec (section 7): validation failures,
cannot-migrate on a missing down, invalid-migration when a directional
function is not callable at invocation time (the repository test expects
the message Migration must supply an up function), execution errors
propagated from a migration body, and fuel exhaustion, an artifact of the
bounded modelling of re-entrant calls. -/
inductive MigErr where
  | validation (msg : String)
  | cannotMigrate (v : Nat)
  | invalidMigration (dir : Direction) (v : Nat)
  | execution (msg : String)
  | outOfFuel
deriving DecidableEq

/-- Result of a call to migrateTo: final control record, ordered
invocation events, number of atomic lock acquisition attempts
(successful or not), and the error if the call raised. -/
structure Outcome where
  ctl : Control
  events : List Ev
  lockTries : Nat
  err : Option MigErr
deriving DecidableEq

/-- Whether some registered definition carries version v. -/
def hasVersion (reg : List MigrationDefinition) (v : Nat) : Bool :=
  reg.any (fun d => d.version == v)

/-- Modelled from the spec: latestVersion of the registry (section 4.1) -
the maximum registered version, or 0 when the registry is empty. -/
def latestVersion (reg : List MigrationDefinition) : Nat :=
  reg.foldr (fun d acc => max d.version acc) 0

/-- Lookup of the registered definition carrying version v, if any. -/
def findByVersion (reg : List MigrationDefinition) (v : Nat) :
    Option MigrationDefinition :=
  reg.find? (fun d => d.version == v)

/-- Insertion keeping the registry in ascending version order. -/
def insertSorted (d : MigrationDefinition) :
    List MigrationDefinition → List MigrationDefinition
  | [] => [d]
  | x :: xs =>
    if d.version < x.version then d :: x :: xs else x :: insertSorted d xs

/-- Modelled from the spec: add (section 4.1), with one deviation forced
by the repository test named Fails migration when up is not a function:
add does not validate that up is callable (the test registers a string as
up without an error, and the failure surfaces later in migrateTo), so add
only rejects version 0 (reserved, section 3) and duplicate versions, and
otherwise inserts keeping ascending order. -/
def add (reg : List MigrationDefinition) (d : MigrationDefinition) :
    Except MigErr (List MigrationDefinition) :=
  if d.version = 0 then
    .error (.validation "version 0 is reserved")
  else if hasVersion reg d.version then
    .error (.validation "duplicate version")
  else
    .ok (insertSorted d reg)

/-- Registration of a whole list of definitions through add, in the
given order; fails as soon as one add fails. -/
def buildRegistryFrom (acc : List MigrationDefinition) :
    List MigrationDefinition → Except MigErr (List MigrationDefinition)
  | [] => .ok acc
  | d :: ds =>
    match add acc d with
    | .error e => .error e
    | .ok acc2 => buildRegistryFrom acc2 ds

/-- Registration of a list of definitions starting from the empty
registry. -/
def buildRegistry (ds : List MigrationDefinition) :
    Except MigErr (List MigrationDefinition) :=
  buildRegistryFrom [] ds

/-- Modelled from the spec: the Version Spec Resolver (section 4.2).
latest resolves to the latest registered version; a bare version must be
0 or registered; the rerun form must name a registered nonzero
version. -/
def resolveSpec (reg : List MigrationDefinition) :
    VersionSpec → Except MigErr (Nat × Bool)
  | .latest => .ok (latestVersion reg, false)
  | .num v =>
    if v = 0 ∨ hasVersion reg v = true then .ok (v, false)
    else .error (.validation "target version not registered")
  | .rerunAt v =>
    if v ≠ 0 ∧ hasVersion reg v = true then .ok (v, true)
    else .error (.validation "rerun target not registered")

/-- Maximum registered version strictly below v, or 0 when there is
none: the version reached after running the down function of the
definition at v (the predecessor version of the spec, section 4.3 step
6). -/
def prevVersion (reg : List MigrationDefinition) (v : Nat) : Nat :=
  reg.foldr (fun d acc => if d.version < v then max d.version acc else acc) 0

/-- The directional field of a definition selected by the direction of
the run. -/
def stepField (dir : Direction) (d : MigrationDefinition) : FnField :=
  match dir with
  | .up => d.up
  | .down => d.down

/-- Error raised when the directional field is absent: going down this
is the cannot-migrate failure of the spec (section 4.3 step 5); going up
it is the invalid-migration failure (section 4.3 step 6, message
Migration must supply an up function in the repository test). -/
def stepMissingErr (dir : Direction) (d : MigrationDefinition) : MigErr :=
  match dir with
  | .up => .invalidMigration .up d.version
  | .down => .cannotMigrate d.version

/-- Execution of one migration body of known behaviour: the invocation
event records the definition passed as argument; a raise becomes an
execution error; a re-entrant call runs the supplied nested migrateTo on
the current control record. -/
def execAct (nested : Control → VersionSpec → Outcome) (dir : Direction)
    (d : MigrationDefinition) (a : Act) (ctl : Control) : Outcome :=
  match a with
  | .ok => ⟨ctl, [⟨dir, d⟩], 0, none⟩
  | .throwErr msg => ⟨ctl, [⟨dir, d⟩], 0, some (.execution msg)⟩
  | .reenter s =>
    let r := nested ctl s
    ⟨r.ctl, ⟨dir, d⟩ :: r.events, r.lockTries, r.err⟩

/-- Modelled from the spec: one step of a run (section 4.3 steps 5 and
6) - a missing down fails with cannot-migrate before any invocation, a
non-callable directional function fails with invalid-migration before
any invocation, and otherwise the body is invoked with the definition as
its argument. -/
def runStep (nested : Control → VersionSpec → Outcome) (dir : Direction)
    (d : MigrationDefinition) (ctl : Control) : Outcome :=
  match stepField dir d with
  | .missing => ⟨ctl, [], 0, some (stepMissingErr dir d)⟩
  | .notFun => ⟨ctl, [], 0, some (.invalidMigration dir d.version)⟩
  | .fn a => execAct nested dir d a ctl

/-- Version durably recorded after a successful step: the step version
itself going up, the predecessor registered version going down (section
4.3 step 6). -/
def nextVersion (reg : List MigrationDefinition) (dir : Direction)
    (d : MigrationDefinition) : Nat :=
  match dir with
  | .up => d.version
  | .down => prevVersion reg d.version

/-- Modelled from the spec: execution of the resolved subsequence of
steps (section 4.3 steps 6 and 7) - each step runs to completion, on
success the new version is persisted before the next step begins, and on
failure the run stops immediately with the version of the last completed
step still recorded. -/
def runSteps (nested : Control → VersionSpec → Outcome)
    (reg : List MigrationDefinition) (dir : Direction) :
    List MigrationDefinition → Control → Outcome
  | [], ctl => ⟨ctl, [], 0, none⟩
  | d :: rest, ctl =>
    let r := runStep nested dir d ctl
    match r.err with
    | some _ => r
    | none =>
      let r2 := runSteps nested reg dir rest ⟨nextVersion reg dir d, true⟩
      ⟨r2.ctl, r.events ++ r2.events, r.lockTries + r2.lockTries, r2.err⟩

/-- Wrap-up applied to the outcome of the locked phase of a run: the
lock, acquired by one atomic attempt before the phase, is released on
this exit path whatever the phase did, keeping the version the phase
reached. -/
def postRun (r : Outcome) : Outcome :=
  ⟨⟨r.ctl.version, false⟩, r.events, 1 + r.lockTries, r.err⟩

/-- Modelled from the spec: the body of migrateTo (section 4.3),
parameterized by the function used for re-entrant calls.  Step order is
the one of the spec: resolve the spec (propagating validation failures),
return without locking when the target equals the current version and
rerun is off, attempt the atomic lock acquisition and return silently
when it fails, then run the rerun step or the ascending or descending
subsequence, and finally release the lock on every exit path. -/
def migrateToAux (nested : Control → VersionSpec → Outcome)
    (reg : List MigrationDefinition) (ctl : Control) (s : VersionSpec) :
    Outcome :=
  match resolveSpec reg s with
  | .error e => ⟨ctl, [], 0, some e⟩
  | .ok (tgt, rr) =>
    if rr = false ∧ tgt = ctl.version then ⟨ctl, [], 0, none⟩
    else if ctl.locked then ⟨ctl, [], 1, none⟩
    else
      postRun
        (if rr then
          match findByVersion reg tgt with
          | some d => runStep nested .up d ⟨ctl.version, true⟩
          | none => ⟨⟨ctl.version, true⟩, [], 0,
              some (.validation "cannot find migration")⟩
        else if ctl.version < tgt then
          runSteps nested reg .up
            (reg.filter fun d =>
              decide (ctl.version < d.version ∧ d.version ≤ tgt))
            ⟨ctl.version, true⟩
        else
          runSteps nested reg .down
            ((reg.filter fun d =>
              decide (tgt < d.version ∧ d.version ≤ ctl.version)).reverse)
            ⟨ctl.version, true⟩)

/-- Modelled from the spec: migrateTo, with a fuel bound on the depth of
re-entrant calls (re-entrant calls observe the held lock and return
immediately, so any positive fuel large enough for the nesting depth
gives the behaviour of the code). -/
def migrateTo : Nat → List MigrationDefinition → Control → VersionSpec →
    Outcome
  | 0, _, ctl, _ => ⟨ctl, [], 0, some .outOfFuel⟩
  | fuel + 1, reg, ctl, s => migrateToAux (migrateTo fuel reg) reg ctl s

/-- Modelled from the spec: getVersion (section 4.4) - a fresh read of
the control version. -/
def getVersion (ctl : Control) : Nat :=
  ctl.version

/-- Modelled from the spec: unlock (section 4.4) - unconditionally
forces locked to false. -/
def unlock (ctl : Control) : Control :=
  ⟨ctl.version, false⟩

/-- Version recorded after a run over the given steps when started at
the given version: after each step the recorded version becomes the
nextVersion of that step, so the result is the nextVersion of the last
step, or the starting version when there is no step. -/
def finalVer (reg : List MigrationDefinition) (dir : Direction) :
    Nat → List MigrationDefinition → Nat
  | v, [] => v
  | _, d :: rest => finalVer reg dir (nextVersion reg dir d) rest

/-- Ascending order of the registry by version, with no duplicate
versions: the invariant maintained by add. -/
abbrev RegSorted (reg : List MigrationDefinition) : Prop :=
  List.Pairwise (fun a b => a.version < b.version) reg

/-! Basic registry lemmas. -/

theorem hasVersion_iff {reg : List MigrationDefinition} {v : Nat} :
    hasVersion reg v = true ↔ ∃ d ∈ reg, d.version = v := by
  simp [hasVersion, List.any_eq_true]

theorem hasVersion_of_mem {reg : List MigrationDefinition}
    {d : MigrationDefinition} (h : d ∈ reg) :
    hasVersion reg d.version = true :=
  hasVersion_iff.mpr ⟨d, h, rfl⟩

theorem hasVersion_false_iff {reg : List MigrationDefinition} {v : Nat} :
    hasVersion reg v = false ↔ ∀ d ∈ reg, d.version ≠ v := by
  simp [hasVersion, List.any_eq_false]

theorem insertSorted_mem {d a : MigrationDefinition} :
    ∀ {l : List MigrationDefinition},
      a ∈ insertSorted d l ↔ a = d ∨ a ∈ l := by
  intro l
  induction l with
  | nil => simp [insertSorted]
  | cons x xs ih =>
    by_cases h : d.version < x.version
    · simp [insertSorted, h]
    · simp only [insertSorted, if_neg h, List.mem_cons, ih]
      tauto

theorem insertSorted_pairwise {d : MigrationDefinition} :
    ∀ {l : List MigrationDefinition}, RegSorted l →
      (∀ x ∈ l, x.version ≠ d.version) → RegSorted (insertSorted d l) := by
  intro l
  induction l with
  | nil => intro _ _; simp [insertSorted]
  | cons x xs ih =>
    intro hs hf
    obtain ⟨hx, hxs⟩ := List.pairwise_cons.mp hs
    by_cases h : d.version < x.version
    · rw [insertSorted, if_pos h]
      refine List.Pairwise.cons ?_ (List.Pairwise.cons hx hxs)
      intro b hb
      rcases List.mem_cons.mp hb with rfl | hb
      · exact h
      · exact h.trans (hx b hb)
    · have hne : x.version ≠ d.version := hf x (List.mem_cons_self x xs)
      have hxd : x.version < d.version := by omega
      rw [insertSorted, if_neg h]
      refine List.Pairwise.cons ?_ (ih hxs fun y hy => hf y (List.mem_cons_of_mem x hy))
      intro b hb
      rcases insertSorted_mem.mp hb with rfl | hb
      · exact hxd
      · exact hx b hb

theorem add_ok {reg reg2 : List MigrationDefinition}
    {d : MigrationDefinition} (h : add reg d = .ok reg2) :
    d.version ≠ 0 ∧ hasVersion reg d.version = false ∧
      reg2 = insertSorted d reg := by
  by_cases h0 : d.version = 0
  · simp [add, h0] at h
  · by_cases hdup : hasVersion reg d.version
    · simp [add, h0, hdup] at h
    · simp only [add, h0, hdup, if_neg, ite_false, Except.ok.injEq,
        Bool.false_eq_true] at h
      exact ⟨h0, by simpa using hdup, h.symm⟩

theorem buildRegistryFrom_sorted :
    ∀ {ds acc reg : List MigrationDefinition},
      buildRegistryFrom acc ds = .ok reg → RegSorted acc → RegSorted reg := by
  intro ds
  induction ds with
  | nil =>
    intro acc reg h hs
    simp only [buildRegistryFrom, Except.ok.injEq] at h
    exact h ▸ hs
  | cons d rest ih =>
    intro acc reg h hs
    simp only [buildRegistryFrom] at h
    cases hadd : add acc d with
    | error e => rw [hadd] at h; exact absurd h (by simp)
    | ok acc2 =>
      rw [hadd] at h
      obtain ⟨-, hf, rfl⟩ := add_ok hadd
      exact ih h (insertSorted_pairwise hs fun x hx =>
        hasVersion_false_iff.mp hf x hx)

theorem buildRegistryFrom_pos :
    ∀ {ds acc reg : List MigrationDefinition},
      buildRegistryFrom acc ds = .ok reg → (∀ x ∈ acc, 0 < x.version) →
        ∀ x ∈ reg, 0 < x.version := by
  intro ds
  induction ds with
  | nil =>
    intro acc reg h hp
    simp only [buildRegistryFrom, Except.ok.injEq] at h
    exact h ▸ hp
  | cons d rest ih =>
    intro acc reg h hp
    simp only [buildRegistryFrom] at h
    cases hadd : add acc d with
    | error e => rw [hadd] at h; exact absurd h (by simp)
    | ok acc2 =>
      rw [hadd] at h
      obtain ⟨h0, -, rfl⟩ := add_ok hadd
      refine ih h ?_
      intro x hx
      rcases insertSorted_mem.mp hx with rfl | hx
      · omega
      · exact hp x hx

theorem buildRegistryFrom_mem :
    ∀ {ds acc reg : List MigrationDefinition},
      buildRegistryFrom acc ds = .ok reg →
        ∀ x ∈ reg, x ∈ acc ∨ x ∈ ds := by
  intro ds
  induction ds with
  | nil =>
    intro acc reg h x hx
    simp only [buildRegistryFrom, Except.ok.injEq] at h
    exact Or.inl (h ▸ hx)
  | cons d rest ih =>
    intro acc reg h x hx
    simp only [buildRegistryFrom] at h
    cases hadd : add acc d with
    | error e => rw [hadd] at h; exact absurd h (by simp)
    | ok acc2 =>
      rw [hadd] at h
      obtain ⟨-, -, rfl⟩ := add_ok hadd
      rcases ih h x hx with hx2 | hx2
      · rcases insertSorted_mem.mp hx2 with rfl | hx2
        · exact Or.inr (List.mem_cons_self x rest)
        · exact Or.inl hx2
      · exact Or.inr (List.mem_cons_of_mem d hx2)

theorem buildRegistry_sorted {ds reg : List MigrationDefinition}
    (h : buildRegistry ds = .ok reg) : RegSorted reg :=
  buildRegistryFrom_sorted h List.Pairwise.nil

theorem buildRegistry_pos {ds reg : List MigrationDefinition}
    (h : buildRegistry ds = .ok reg) : ∀ x ∈ reg, 0 < x.version :=
  buildRegistryFrom_pos h (by simp)

theorem buildRegistry_mem {ds reg : List MigrationDefinition}
    (h : buildRegistry ds = .ok reg) : ∀ x ∈ reg, x ∈ ds := by
  intro x hx
  rcases buildRegistryFrom_mem h x hx with hx2 | hx2
  · simp at hx2
  · exact hx2

theorem findByVersion_of_mem {d : MigrationDefinition} :
    ∀ {reg : List MigrationDefinition}, RegSorted reg → d ∈ reg →
      findByVersion reg d.version = some d := by
  intro reg
  induction reg with
  | nil => intro _ hm; simp at hm
  | cons x xs ih =>
    intro hs hm
    obtain ⟨hx, hxs⟩ := List.pairwise_cons.mp hs
    rcases List.mem_cons.mp hm with rfl | hm
    · simp [findByVersion, List.find?]
    · have hne : (x.version == d.version) = false := by
        simpa using Nat.ne_of_lt (hx d hm)
      have := ih hxs hm
      simpa [findByVersion, List.find?, hne] using this

/-! Lemmas about prevVersion. -/

theorem prevVersion_cons {d : MigrationDefinition}
    {reg : List MigrationDefinition} {v : Nat} :
    prevVersion (d :: reg) v =
      if d.version < v then max d.version (prevVersion reg v)
      else prevVersion reg v := rfl

theorem prevVersion_le {v b : Nat} :
    ∀ {reg : List MigrationDefinition},
      (∀ d ∈ reg, d.version < v → d.version ≤ b) → prevVersion reg v ≤ b := by
  intro reg
  induction reg with
  | nil => intro _; simp [prevVersion]
  | cons d rest ih =>
    intro h
    rw [prevVersion_cons]
    by_cases hd : d.version < v
    · rw [if_pos hd]
      have h1 : d.version ≤ b := h d (List.mem_cons_self d rest) hd
      have h2 : prevVersion rest v ≤ b :=
        ih fun x hx => h x (List.mem_cons_of_mem d hx)
      omega
    · rw [if_neg hd]
      exact ih fun x hx => h x (List.mem_cons_of_mem d hx)

theorem le_prevVersion {v : Nat} {d : MigrationDefinition} :
    ∀ {reg : List MigrationDefinition}, d ∈ reg → d.version < v →
      d.version ≤ prevVersion reg v := by
  intro reg
  induction reg with
  | nil => intro hm; simp at hm
  | cons x rest ih =>
    intro hm hv
    rw [prevVersion_cons]
    rcases List.mem_cons.mp hm with rfl | hm
    · rw [if_pos hv]; omega
    · by_cases hx : x.version < v
      · rw [if_pos hx]
        have := ih hm hv
        omega
      · rw [if_neg hx]
        exact ih hm hv

/-! Lemmas about runSteps and finalVer. -/

theorem runStep_ok {nested : Control → VersionSpec → Outcome}
    {dir : Direction} {d : MigrationDefinition} {ctl : Control}
    (h : stepField dir d = .fn .ok) :
    runStep nested dir d ctl = ⟨ctl, [⟨dir, d⟩], 0, none⟩ := by
  rw [runStep, h]; rfl

theorem runSteps_nil {nested : Control → VersionSpec → Outcome}
    {reg : List MigrationDefinition} {dir : Direction} {ctl : Control} :
    runSteps nested reg dir [] ctl = ⟨ctl, [], 0, none⟩ := rfl

theorem runSteps_ok {nested : Control → VersionSpec → Outcome}
    {reg : List MigrationDefinition} {dir : Direction} :
    ∀ {steps : List MigrationDefinition} {v : Nat},
      (∀ d ∈ steps, stepField dir d = .fn .ok) →
      runSteps nested reg dir steps ⟨v, true⟩ =
        ⟨⟨finalVer reg dir v steps, true⟩, steps.map (Ev.mk dir), 0, none⟩ := by
  intro steps
  induction steps with
  | nil => intro v _; simp [runSteps_nil, finalVer]
  | cons d rest ih =>
    intro v h
    have hd : stepField dir d = .fn .ok := h d (List.mem_cons_self d rest)
    have hrest : ∀ x ∈ rest, stepField dir x = .fn .ok :=
      fun x hx => h x (List.mem_cons_of_mem d hx)
    rw [runSteps]
    rw [runStep_ok hd]
    simp only []
    rw [ih hrest]
    simp [finalVer]

theorem runSteps_stops {nested : Control → VersionSpec → Outcome}
    {reg : List MigrationDefinition} {dir : Direction}
    {bad : MigrationDefinition} {rest : List MigrationDefinition}
    {badEvs : List Ev} {e : MigErr}
    (hbad : ∀ c : Control, runStep nested dir bad c = ⟨c, badEvs, 0, some e⟩) :
    ∀ {done : List MigrationDefinition} {v : Nat},
      (∀ d ∈ done, stepField dir d = .fn .ok) →
      runSteps nested reg dir (done ++ bad :: rest) ⟨v, true⟩ =
        ⟨⟨finalVer reg dir v done, true⟩,
          done.map (Ev.mk dir) ++ badEvs, 0, some e⟩ := by
  intro done
  induction done with
  | nil =>
    intro v _
    rw [List.nil_append, runSteps, hbad]
    simp [finalVer]
  | cons d ds ih =>
    intro v h
    have hd : stepField dir d = .fn .ok := h d (List.mem_cons_self d ds)
    have hds : ∀ x ∈ ds, stepField dir x = .fn .ok :=
      fun x hx => h x (List.mem_cons_of_mem d hx)
    rw [List.cons_append, runSteps, runStep_ok hd]
    simp only []
    rw [ih hds]
    simp [finalVer]

theorem finalVer_append {reg : List MigrationDefinition} {dir : Direction}
    {x : MigrationDefinition} :
    ∀ {xs : List MigrationDefinition} {v : Nat},
      finalVer reg dir v (xs ++ [x]) = nextVersion reg dir x := by
  intro xs
  induction xs with
  | nil => intro v; simp [finalVer]
  | cons y ys ih => intro v; rw [List.cons_append, finalVer]; exact ih

theorem finalVer_up_eq {reg : List MigrationDefinition} {tgt : Nat} :
    ∀ {l : List MigrationDefinition} {v0 : Nat},
      List.Pairwise (fun a b => a.version < b.version) l →
      (∀ a ∈ l, a.version ≤ tgt) → (∃ a ∈ l, a.version = tgt) →
      finalVer reg .up v0 l = tgt := by
  intro l
  induction l with
  | nil => intro v0 _ _ hex; simp at hex
  | cons d rest ih =>
    intro v0 hp hub hex
    obtain ⟨hd, hrest⟩ := List.pairwise_cons.mp hp
    rw [finalVer]
    rcases rest with - | ⟨r, rs⟩
    · rcases hex with ⟨a, ha, hav⟩
      simp only [List.mem_singleton] at ha
      subst ha
      simp [finalVer, nextVersion, hav]
    · refine ih hrest (fun a ha => hub a (List.mem_cons_of_mem d ha)) ?_
      rcases hex with ⟨a, ha, hav⟩
      rcases List.mem_cons.mp ha with rfl | ha
      · exfalso
        have h1 : a.version < r.version := hd r (List.mem_cons_self r rs)
        have h2 : r.version ≤ tgt := hub r (by simp)
        omega
      · exact ⟨a, ha, hav⟩

/-! Unfolding lemmas for migrateTo and its phases. -/

theorem resolveSpec_latest {reg : List MigrationDefinition} :
    resolveSpec reg .latest = .ok (latestVersion reg, false) := rfl

theorem resolveSpec_num_ok {reg : List MigrationDefinition} {tgt : Nat}
    (h : tgt = 0 ∨ hasVersion reg tgt = true) :
    resolveSpec reg (.num tgt) = .ok (tgt, false) := by
  rw [resolveSpec, if_pos h]

theorem resolveSpec_rerun_ok {reg : List MigrationDefinition} {v : Nat}
    (h0 : v ≠ 0) (hm : hasVersion reg v = true) :
    resolveSpec reg (.rerunAt v) = .ok (v, true) := by
  rw [resolveSpec, if_pos ⟨h0, hm⟩]

theorem migrateTo_succ {fuel : Nat} {reg : List MigrationDefinition}
    {ctl : Control} {s : VersionSpec} :
    migrateTo (fuel + 1) reg ctl s =
      migrateToAux (migrateTo fuel reg) reg ctl s := rfl

theorem migrateToAux_err {nested : Control → VersionSpec → Outcome}
    {reg : List MigrationDefinition} {ctl : Control} {s : VersionSpec}
    {e : MigErr} (hres : resolveSpec reg s = .error e) :
    migrateToAux nested reg ctl s = ⟨ctl, [], 0, some e⟩ := by
  rw [migrateToAux, hres]

theorem migrateToAux_noop {nested : Control → VersionSpec → Outcome}
    {reg : List MigrationDefinition} {ctl : Control} {s : VersionSpec}
    (hres : resolveSpec reg s = .ok (ctl.version, false)) :
    migrateToAux nested reg ctl s = ⟨ctl, [], 0, none⟩ := by
  rw [migrateToAux, hres]
  simp

theorem migrateToAux_locked {nested : Control → VersionSpec → Outcome}
    {reg : List MigrationDefinition} {ctl : Control} {s : VersionSpec}
    {tgt : Nat} {rr : Bool} (hres : resolveSpec reg s = .ok (tgt, rr))
    (hlocked : ctl.locked = true)
    (hne : rr = true ∨ tgt ≠ ctl.version) :
    migrateToAux nested reg ctl s = ⟨ctl, [], 1, none⟩ := by
  have hcond : ¬(rr = false ∧ tgt = ctl.version) := by
    rcases hne with h | h
    · simp [h]
    · simp [h]
  simp only [migrateToAux, hres]
  rw [if_neg hcond, if_pos hlocked]

theorem migrateToAux_up {nested : Control → VersionSpec → Outcome}
    {reg : List MigrationDefinition} {ctl : Control} {s : VersionSpec}
    {tgt : Nat} (hres : resolveSpec reg s = .ok (tgt, false))
    (hlocked : ctl.locked = false) (hcur : ctl.version < tgt) :
    migrateToAux nested reg ctl s =
      postRun (runSteps nested reg .up
        (reg.filter fun d =>
          decide (ctl.version < d.version ∧ d.version ≤ tgt))
        ⟨ctl.version, true⟩) := by
  have hcond : ¬(True ∧ tgt = ctl.version) := by
    simp [Nat.ne_of_gt hcur]
  simp only [migrateToAux, hres]
  rw [if_neg hcond]
  simp only [hlocked, Bool.false_eq_true, if_false, if_pos hcur]

theorem migrateToAux_down {nested : Control → VersionSpec → Outcome}
    {reg : List MigrationDefinition} {ctl : Control} {s : VersionSpec}
    {tgt : Nat} (hres : resolveSpec reg s = .ok (tgt, false))
    (hlocked : ctl.locked = false) (hcur : tgt < ctl.version) :
    migrateToAux nested reg ctl s =
      postRun (runSteps nested reg .down
        ((reg.filter fun d =>
          decide (tgt < d.version ∧ d.version ≤ ctl.version)).reverse)
        ⟨ctl.version, true⟩) := by
  have hcond : ¬(True ∧ tgt = ctl.version) := by
    simp [Nat.ne_of_lt hcur]
  simp only [migrateToAux, hres]
  rw [if_neg hcond]
  have hnotup : ¬(ctl.version < tgt) := by omega
  simp only [hlocked, Bool.false_eq_true, if_false, if_neg hnotup]

theorem migrateToAux_rerun {nested : Control → VersionSpec → Outcome}
    {reg : List MigrationDefinition} {ctl : Control} {s : VersionSpec}
    {tgt : Nat} {d : MigrationDefinition}
    (hres : resolveSpec reg s = .ok (tgt, true))
    (hlocked : ctl.locked = false)
    (hfind : findByVersion reg tgt = some d) :
    migrateToAux nested reg ctl s =
      postRun (runStep nested .up d ⟨ctl.version, true⟩) := by
  have hcond : ¬(true = false ∧ tgt = ctl.version) := by simp
  simp only [migrateToAux, hres]
  rw [if_neg hcond]
  simp only [hlocked, Bool.false_eq_true, if_false, if_true, hfind]

/-! Concrete migration definitions mirroring the repository test suite,
used by witness theorems. -/

def cOk1 : MigrationDefinition := ⟨1, none, .fn .ok, .missing⟩

def cOk2 : MigrationDefinition := ⟨2, none, .fn .ok, .missing⟩

def cOk3 : MigrationDefinition := ⟨3, none, .fn .ok, .missing⟩

def cOk4 : MigrationDefinition := ⟨4, none, .fn .ok, .missing⟩

def cThrow2 : MigrationDefinition :=
  ⟨2, none, .fn (.throwErr "Error in migration"), .missing⟩

def cDown3 : MigrationDefinition := ⟨3, some "Down Migration", .fn .ok, .fn .ok⟩

def cUpDown1 : MigrationDefinition := ⟨1, none, .fn .ok, .fn .ok⟩

def cReenter1 : MigrationDefinition :=
  ⟨1, none, .fn (.reenter .latest), .missing⟩

def cBadUp : MigrationDefinition :=
  ⟨1, some "Failure of a migration", .notFun, .missing⟩

/-- C3: on every exit path of migrateTo taken from an unlocked control
record - success, step failure, no-op, or validation error - the final
control record has locked set to false, so an immediately subsequent
call is not blocked by a held lock.  The quantification over every spec
and registry covers in particular the runs in which a migration function
raises. -/
theorem migrateTo_releases_lock (fuel : Nat) (reg : List MigrationDefinition)
    (ctl : Control) (s : VersionSpec) (h : ctl.locked = false) :
    (migrateTo fuel reg ctl s).ctl.locked = false := by
  cases fuel with
  | zero => exact h
  | succ n =>
    rw [migrateTo_succ]
    cases hres : resolveSpec reg s with
    | error e =>
      simp only [migrateToAux, hres]
      exact h
    | ok p =>
      obtain ⟨tgt, rr⟩ := p
      simp only [migrateToAux, hres]
      split
      · exact h
      · split
        · exact h
        · simp [postRun]

/-- C3 witness: a run in which the second migration raises still ends
with the lock released. -/
theorem migrateTo_releases_lock_witness :
    (migrateTo 1 [cOk1, cThrow2] ⟨0, false⟩ .latest).ctl.locked = false :=
  migrateTo_releases_lock 1 [cOk1, cThrow2] ⟨0, false⟩ .latest rfl

/-- C7: when the resolved spec has rerun off and its target equals the
current recorded version, migrateTo performs zero invocations, makes
zero lock acquisition attempts, leaves the control record unchanged, and
getVersion is unchanged afterwards. -/
theorem migrateTo_noop_at_target (fuel : Nat)
    (reg : List MigrationDefinition) (ctl : Control) (s : VersionSpec)
    (hres : resolveSpec reg s = .ok (ctl.version, false)) :
    migrateTo (fuel + 1) reg ctl s = ⟨ctl, [], 0, none⟩ ∧
      getVersion (migrateTo (fuel + 1) reg ctl s).ctl = getVersion ctl := by
  constructor
  · rw [migrateTo_succ]
    exact migrateToAux_noop hres
  · rw [migrateTo_succ, migrateToAux_noop hres]

/-- C7 witness: already at version 1 with version 1 registered, a call
targeting version 1 is a no-op that never touches the lock. -/
theorem migrateTo_noop_at_target_witness :
    migrateTo 3 [cOk1] ⟨1, false⟩ (.num 1) = ⟨⟨1, false⟩, [], 0, none⟩ ∧
      getVersion (migrateTo 3 [cOk1] ⟨1, false⟩ (.num 1)).ctl =
        getVersion ⟨1, false⟩ :=
  migrateTo_noop_at_target 2 [cOk1] ⟨1, false⟩ (.num 1) rfl

/-- C6 counterexample: migrateTo called while the control record is
locked does not always return normally - with version 1 registered and
the lock held, a call whose target version 5 is not registered raises
the validation error from the resolver (spec resolution happens before
the lock check), so the claim as stated is false at this input. -/
theorem migrateTo_locked_error_cex :
    (⟨1, true⟩ : Control).locked = true ∧
      (migrateTo 1 [cOk1] ⟨1, true⟩ (.num 5)).err =
        some (.validation "target version not registered") :=
  ⟨rfl, rfl⟩

/-- C6 (amended): whenever migrateTo is called while the control record
is locked with a spec that resolves without a validation error, it
returns normally, invokes no migration function, and leaves the control
record unchanged; consequently a migration whose up function itself
calls migrateTo with target latest is executed exactly once, the inner
call being a silent no-op, and the run finishes at the version of that
migration. -/
theorem migrateTo_locked_silent_noop :
    (∀ (fuel : Nat) (reg : List MigrationDefinition) (ctl : Control)
        (s : VersionSpec) (tgt : Nat) (rr : Bool),
      ctl.locked = true → resolveSpec reg s = .ok (tgt, rr) →
      (migrateTo (fuel + 1) reg ctl s).ctl = ctl ∧
        (migrateTo (fuel + 1) reg ctl s).events = [] ∧
        (migrateTo (fuel + 1) reg ctl s).err = none) ∧
    (∀ (fuel : Nat) (d : MigrationDefinition), 0 < d.version →
      d.up = .fn (.reenter .latest) →
      migrateTo (fuel + 2) [d] ⟨0, false⟩ .latest =
        ⟨⟨d.version, false⟩, [⟨.up, d⟩], 2, none⟩) := by
  constructor
  · intro fuel reg ctl s tgt rr hlocked hres
    by_cases hc : rr = false ∧ tgt = ctl.version
    · obtain ⟨hrr, htgt⟩ := hc
      subst hrr
      subst htgt
      rw [migrateTo_succ, migrateToAux_noop hres]
      exact ⟨rfl, rfl, rfl⟩
    · have hne : rr = true ∨ tgt ≠ ctl.version := by
        rcases not_and_or.mp hc with h | h
        · exact Or.inl (by simpa using h)
        · exact Or.inr h
      rw [migrateTo_succ, migrateToAux_locked hres hlocked hne]
      exact ⟨rfl, rfl, rfl⟩
  · intro fuel d h0 hup
    have hlat : latestVersion [d] = d.version := by simp [latestVersion]
    have hres : resolveSpec [d] .latest = .ok (d.version, false) := by
      rw [resolveSpec_latest, hlat]
    have hnested : migrateTo (fuel + 1) [d] ⟨0, true⟩ .latest =
        ⟨⟨0, true⟩, [], 1, none⟩ := by
      rw [migrateTo_succ]
      exact migrateToAux_locked hres rfl
        (Or.inr (by change d.version ≠ 0; omega))
    have hdec : decide ((0 : Nat) < d.version ∧ d.version ≤ d.version) =
        true := by simp [h0]
    have hfil : ([d].filter fun x =>
        decide ((0 : Nat) < x.version ∧ x.version ≤ d.version)) = [d] := by
      simp only [List.filter, hdec]
    rw [migrateTo_succ, migrateToAux_up hres rfl h0]
    rw [hfil, runSteps]
    simp only [runStep, stepField, hup, execAct, hnested]
    simp [runSteps_nil, nextVersion, postRun]

/-- C6 witness: a concrete re-entrant migration runs exactly once and a
concrete locked call with a resolvable spec is a silent no-op. -/
theorem migrateTo_locked_silent_noop_witness :
    ((migrateTo 1 [cOk1] ⟨0, true⟩ .latest).ctl = ⟨0, true⟩ ∧
      (migrateTo 1 [cOk1] ⟨0, true⟩ .latest).events = [] ∧
      (migrateTo 1 [cOk1] ⟨0, true⟩ .latest).err = none) ∧
    migrateTo 2 [cReenter1] ⟨0, false⟩ .latest =
      ⟨⟨1, false⟩, [⟨.up, cReenter1⟩], 2, none⟩ :=
  ⟨migrateTo_locked_silent_noop.1 0 [cOk1] ⟨0, true⟩ .latest 1 false rfl rfl,
    migrateTo_locked_silent_noop.2 0 cReenter1 (by decide) rfl⟩

theorem migrateToAux_up_at {nested : Control → VersionSpec → Outcome}
    {reg : List MigrationDefinition} {s : VersionSpec} {cur tgt : Nat}
    (hres : resolveSpec reg s = .ok (tgt, false)) (hcur : cur < tgt) :
    migrateToAux nested reg ⟨cur, false⟩ s =
      postRun (runSteps nested reg .up
        (reg.filter fun d => decide (cur < d.version ∧ d.version ≤ tgt))
        ⟨cur, true⟩) :=
  migrateToAux_up hres rfl hcur

theorem migrateToAux_down_at {nested : Control → VersionSpec → Outcome}
    {reg : List MigrationDefinition} {s : VersionSpec} {cur tgt : Nat}
    (hres : resolveSpec reg s = .ok (tgt, false)) (hcur : tgt < cur) :
    migrateToAux nested reg ⟨cur, false⟩ s =
      postRun (runSteps nested reg .down
        ((reg.filter fun d =>
          decide (tgt < d.version ∧ d.version ≤ cur)).reverse)
        ⟨cur, true⟩) :=
  migrateToAux_down hres rfl hcur

theorem migrateToAux_rerun_at {nested : Control → VersionSpec → Outcome}
    {reg : List MigrationDefinition} {s : VersionSpec} {cur tgt : Nat}
    {d : MigrationDefinition} (hres : resolveSpec reg s = .ok (tgt, true))
    (hfind : findByVersion reg tgt = some d) :
    migrateToAux nested reg ⟨cur, false⟩ s =
      postRun (runStep nested .up d ⟨cur, true⟩) :=
  migrateToAux_rerun hres rfl hfind

/-- C5: for a registered definition whose version is the current
recorded version - registries with gaps included, the registry being any
sorted duplicate-free list containing it - migrateTo with the rerun form
of that version invokes the up function of that definition exactly
once, invokes no other migration function, and leaves the recorded
control version unchanged. -/
theorem migrateTo_rerun_once (fuel : Nat) (reg : List MigrationDefinition)
    (d : MigrationDefinition) (hsort : RegSorted reg) (hmem : d ∈ reg)
    (h0 : d.version ≠ 0) (hup : d.up = .fn .ok) :
    migrateTo (fuel + 1) reg ⟨d.version, false⟩ (.rerunAt d.version) =
      ⟨⟨d.version, false⟩, [⟨.up, d⟩], 1, none⟩ := by
  have hres := resolveSpec_rerun_ok h0 (hasVersion_of_mem hmem)
  have hfind := findByVersion_of_mem hsort hmem
  rw [migrateTo_succ, migrateToAux_rerun_at hres hfind,
    runStep_ok (show stepField .up d = .fn .ok from hup)]
  rfl

/-- C5 witness: with only version 3 registered and reached, the rerun
form of version 3 runs its up once more and the version stays 3. -/
theorem migrateTo_rerun_once_witness :
    migrateTo 2 [cOk3] ⟨3, false⟩ (.rerunAt 3) =
      ⟨⟨3, false⟩, [⟨.up, cOk3⟩], 1, none⟩ :=
  migrateTo_rerun_once 1 [cOk3] cOk3 (by decide) (by decide) (by decide) rfl

/-- C1: when the ascending steps of a run split as a successful prefix,
a step whose up function raises, and a remainder, migrateTo propagates
the execution error with its original message, the invocation events
cover exactly the prefix and the failing step - no function of any
subsequent step is invoked - and the final recorded version is the
version of the last successfully completed step (the starting version
when the prefix is empty), never the version of the failed step. -/
theorem migrateTo_step_failure (fuel : Nat) (reg : List MigrationDefinition)
    (cur tgt : Nat) (msg : String)
    (done rest : List MigrationDefinition) (bad : MigrationDefinition)
    (hcur : cur < tgt) (hmem : hasVersion reg tgt = true)
    (hsteps : (reg.filter fun d =>
      decide (cur < d.version ∧ d.version ≤ tgt)) = done ++ bad :: rest)
    (hdone : ∀ d ∈ done, d.up = .fn .ok)
    (hbad : bad.up = .fn (.throwErr msg)) :
    migrateTo (fuel + 1) reg ⟨cur, false⟩ (.num tgt) =
      ⟨⟨finalVer reg .up cur done, false⟩,
        done.map (Ev.mk .up) ++ [⟨.up, bad⟩], 1,
        some (.execution msg)⟩ := by
  have hres := resolveSpec_num_ok (Or.inr hmem)
  have hbadStep : ∀ c : Control,
      runStep (migrateTo fuel reg) .up bad c =
        ⟨c, [⟨.up, bad⟩], 0, some (.execution msg)⟩ := by
    intro c
    rw [runStep]
    rw [show stepField .up bad = .fn (.throwErr msg) from hbad]
    rfl
  rw [migrateTo_succ, migrateToAux_up_at hres hcur, hsteps,
    runSteps_stops hbadStep (fun d hd => hdone d hd)]
  rfl

/-- C1 witness: the crash-partial-progress scenario of the test suite -
version 1 succeeds, version 2 raises, the call errors with the original
message, only versions 1 and 2 were invoked, and the recorded version is
1, with the lock released. -/
theorem migrateTo_step_failure_witness :
    migrateTo 1 [cOk1, cThrow2] ⟨0, false⟩ (.num 2) =
      ⟨⟨1, false⟩, [⟨.up, cOk1⟩, ⟨.up, cThrow2⟩], 1,
        some (.execution "Error in migration")⟩ :=
  migrateTo_step_failure 0 [cOk1, cThrow2] 0 2 "Error in migration"
    [cOk1] [] cThrow2 (by decide) (by decide) (by decide) (by decide) rfl

/-- C2: for a registry built by add from definitions registered in any
order, a call targeting a registered version strictly above the current
one invokes the up function of exactly the registered versions strictly
greater than the current version and at most the target, in strictly
increasing version order, and the final recorded version equals the
target, with no error and the lock released. -/
theorem migrateTo_up_complete (fuel : Nat)
    (ds reg : List MigrationDefinition) (cur tgt : Nat)
    (hbuild : buildRegistry ds = .ok reg)
    (hok : ∀ d ∈ ds, d.up = .fn .ok)
    (hcur : cur < tgt) (hmem : hasVersion reg tgt = true) :
    migrateTo (fuel + 1) reg ⟨cur, false⟩ (.num tgt) =
      ⟨⟨tgt, false⟩,
        (reg.filter fun d =>
          decide (cur < d.version ∧ d.version ≤ tgt)).map (Ev.mk .up),
        1, none⟩ ∧
    List.Pairwise (fun a b : Ev => a.arg.version < b.arg.version)
      ((reg.filter fun d =>
        decide (cur < d.version ∧ d.version ≤ tgt)).map (Ev.mk .up)) := by
  have hsort : RegSorted reg := buildRegistry_sorted hbuild
  have hres := resolveSpec_num_ok (Or.inr hmem)
  have hfp : List.Pairwise (fun a b => a.version < b.version)
      (reg.filter fun d => decide (cur < d.version ∧ d.version ≤ tgt)) :=
    List.Pairwise.sublist (List.filter_sublist reg) hsort
  have hsteps : ∀ d ∈ (reg.filter fun d =>
      decide (cur < d.version ∧ d.version ≤ tgt)),
      stepField .up d = .fn .ok := by
    intro d hd
    exact hok d (buildRegistry_mem hbuild d (List.mem_of_mem_filter hd))
  have hub : ∀ a ∈ (reg.filter fun d =>
      decide (cur < d.version ∧ d.version ≤ tgt)), a.version ≤ tgt := by
    intro a ha
    have h := (List.mem_filter.mp ha).2
    simp only [decide_eq_true_eq] at h
    exact h.2
  have hex : ∃ a ∈ (reg.filter fun d =>
      decide (cur < d.version ∧ d.version ≤ tgt)), a.version = tgt := by
    obtain ⟨dt, hdtm, hdtv⟩ := hasVersion_iff.mp hmem
    refine ⟨dt, List.mem_filter.mpr ⟨hdtm, ?_⟩, hdtv⟩
    simp only [decide_eq_true_eq]
    omega
  have hfin := @finalVer_up_eq reg tgt _ cur hfp hub hex
  constructor
  · rw [migrateTo_succ, migrateToAux_up_at hres hcur, runSteps_ok hsteps,
      hfin]
    rfl
  · exact List.pairwise_map.mpr hfp

/-- C2 witness: the out-of-order registration scenario of the test
suite - versions 1, 4, 3 registered in that order, current version 1,
target 4: version 3 runs before version 4 and the final version is
4. -/
theorem migrateTo_up_complete_witness :
    migrateTo 1 [cOk1, cOk3, cOk4] ⟨1, false⟩ (.num 4) =
      ⟨⟨4, false⟩, [⟨.up, cOk3⟩, ⟨.up, cOk4⟩], 1, none⟩ ∧
    List.Pairwise (fun a b : Ev => a.arg.version < b.arg.version)
      [⟨.up, cOk3⟩, ⟨.up, cOk4⟩] :=
  migrateTo_up_complete 0 [cOk1, cOk4, cOk3] [cOk1, cOk3, cOk4] 1 4 rfl
    (by decide) (by decide) rfl

/-- C4: in a downward run whose descending steps split as a successful
prefix, a step whose definition has no down function, and a remainder,
migrateTo fails with the cannot-migrate error naming the version of that step
without invoking any function of that step, the invocation events cover
exactly the prefix - its down steps stay committed - and the recorded
version is the last version successfully reached (the starting version
when the prefix is empty). -/
theorem migrateTo_down_missing (fuel : Nat) (reg : List MigrationDefinition)
    (cur tgt : Nat) (done rest : List MigrationDefinition)
    (bad : MigrationDefinition)
    (htgt : tgt < cur) (hmem : tgt = 0 ∨ hasVersion reg tgt = true)
    (hsteps : ((reg.filter fun d =>
      decide (tgt < d.version ∧ d.version ≤ cur)).reverse) =
        done ++ bad :: rest)
    (hdone : ∀ d ∈ done, d.down = .fn .ok)
    (hbad : bad.down = .missing) :
    migrateTo (fuel + 1) reg ⟨cur, false⟩ (.num tgt) =
      ⟨⟨finalVer reg .down cur done, false⟩, done.map (Ev.mk .down), 1,
        some (.cannotMigrate bad.version)⟩ := by
  have hres := resolveSpec_num_ok hmem
  have hbadStep : ∀ c : Control,
      runStep (migrateTo fuel reg) .down bad c =
        ⟨c, [], 0, some (.cannotMigrate bad.version)⟩ := by
    intro c
    rw [runStep]
    rw [show stepField .down bad = .missing from hbad]
    rfl
  rw [migrateTo_succ, migrateToAux_down_at hres htgt, hsteps,
    runSteps_stops hbadStep (fun d hd => hdone d hd)]
  simp [postRun]

/-- C4 witness: the downward-failure scenario of the test suite -
versions 1 and 2 without down, version 3 with down, current version 3,
target 1: the down of version 3 runs and commits (version reaches 2), then
the run fails with cannot-migrate at version 2 and the recorded version
stays 2. -/
theorem migrateTo_down_missing_witness :
    migrateTo 1 [cOk1, cOk2, cDown3] ⟨3, false⟩ (.num 1) =
      ⟨⟨2, false⟩, [⟨.down, cDown3⟩], 1, some (.cannotMigrate 2)⟩ :=
  migrateTo_down_missing 0 [cOk1, cOk2, cDown3] 3 1 [cDown3] [] cOk2
    (by decide) (Or.inr rfl) (by decide) (by decide) rfl

/-- C10: for a sorted duplicate-free registry, a downward run from a
registered current version to a target (0 allowed, otherwise registered)
in which every crossed definition has a down function invokes the down
function of exactly the registered versions strictly greater than the
target and at most the current version, in strictly decreasing version
order, with no error, the lock released, and the final recorded version
equal to the target. -/
theorem migrateTo_down_complete (fuel : Nat)
    (reg : List MigrationDefinition) (cur tgt : Nat)
    (hsort : RegSorted reg)
    (htgt : tgt < cur) (hmem : tgt = 0 ∨ hasVersion reg tgt = true)
    (hcur : hasVersion reg cur = true)
    (hok : ∀ d ∈ reg, tgt < d.version → d.version ≤ cur →
      d.down = .fn .ok) :
    migrateTo (fuel + 1) reg ⟨cur, false⟩ (.num tgt) =
      ⟨⟨tgt, false⟩,
        ((reg.filter fun d =>
          decide (tgt < d.version ∧ d.version ≤ cur)).reverse).map
          (Ev.mk .down),
        1, none⟩ ∧
    List.Pairwise (fun a b : Ev => b.arg.version < a.arg.version)
      (((reg.filter fun d =>
        decide (tgt < d.version ∧ d.version ≤ cur)).reverse).map
        (Ev.mk .down)) := by
  have hres := resolveSpec_num_ok hmem
  have hfp : List.Pairwise (fun a b => a.version < b.version)
      (reg.filter fun d => decide (tgt < d.version ∧ d.version ≤ cur)) :=
    List.Pairwise.sublist (List.filter_sublist reg) hsort
  have hsteps : ∀ d ∈ ((reg.filter fun d =>
      decide (tgt < d.version ∧ d.version ≤ cur)).reverse),
      stepField .down d = .fn .ok := by
    intro d hd
    rw [List.mem_reverse] at hd
    have hmf := List.mem_filter.mp hd
    have hq := hmf.2
    simp only [decide_eq_true_eq] at hq
    exact hok d hmf.1 hq.1 hq.2
  obtain ⟨dc, hdcm, hdcv⟩ := hasVersion_iff.mp hcur
  have hdcf : dc ∈ (reg.filter fun d =>
      decide (tgt < d.version ∧ d.version ≤ cur)) := by
    refine List.mem_filter.mpr ⟨hdcm, ?_⟩
    simp only [decide_eq_true_eq]
    omega
  have hfin : finalVer reg .down cur
      ((reg.filter fun d =>
        decide (tgt < d.version ∧ d.version ≤ cur)).reverse) = tgt := by
    cases hF : (reg.filter fun d =>
        decide (tgt < d.version ∧ d.version ≤ cur)) with
    | nil => rw [hF] at hdcf; simp at hdcf
    | cons d0 drest =>
      have hq0 : tgt < d0.version ∧ d0.version ≤ cur := by
        have h := (List.mem_filter.mp
          (hF ▸ List.mem_cons_self d0 drest)).2
        simpa only [decide_eq_true_eq] using h
      have hd0lt : ∀ y ∈ drest, d0.version < y.version := by
        have h := hF ▸ hfp
        exact (List.pairwise_cons.mp h).1
      have hup2 : ∀ u ∈ reg, u.version < d0.version → u.version ≤ tgt := by
        intro u hu hult
        by_contra hnot
        push_neg at hnot
        have huf : u ∈ (reg.filter fun d =>
            decide (tgt < d.version ∧ d.version ≤ cur)) := by
          refine List.mem_filter.mpr ⟨hu, ?_⟩
          simp only [decide_eq_true_eq]
          omega
        rw [hF] at huf
        rcases List.mem_cons.mp huf with rfl | h
        · omega
        · exact absurd (hd0lt u h) (by omega)
      have hprev_le : prevVersion reg d0.version ≤ tgt :=
        prevVersion_le hup2
      have htgt_le : tgt ≤ prevVersion reg d0.version := by
        rcases hmem with rfl | hm
        · exact Nat.zero_le _
        · obtain ⟨dt, hdtm, hdtv⟩ := hasVersion_iff.mp hm
          have := le_prevVersion hdtm (show dt.version < d0.version by omega)
          omega
      rw [List.reverse_cons, finalVer_append]
      show prevVersion reg d0.version = tgt
      omega
  constructor
  · rw [migrateTo_succ, migrateToAux_down_at hres htgt,
      runSteps_ok hsteps, hfin]
    rfl
  · refine List.pairwise_map.mpr ?_
    rw [List.pairwise_reverse]
    exact hfp

/-- C10 witness: the down-to-zero scenario of the test suite - a single
version 1 with a down function, current version 1, target 0: its down
runs and the final version is 0. -/
theorem migrateTo_down_complete_witness :
    migrateTo 1 [cUpDown1] ⟨1, false⟩ (.num 0) =
      ⟨⟨0, false⟩, [⟨.down, cUpDown1⟩], 1, none⟩ ∧
    List.Pairwise (fun a b : Ev => b.arg.version < a.arg.version)
      [⟨.down, cUpDown1⟩] :=
  migrateTo_down_complete 0 [cUpDown1] 1 0 (by decide)
    (by decide) (Or.inl rfl) rfl (by decide)

/-- C8 counterexample: add accepts a definition whose up field is not a
callable value instead of failing with a validation error - exactly the
registration performed without error by the repository test named Fails
migration when up is not a function. -/
theorem add_accepts_bad_up_cex :
    add [] cBadUp = .ok [cBadUp] := rfl

/-- C8 (amended): add does not validate the up field - a definition
whose up is missing or not callable is accepted whenever its version is
nonzero and fresh - and the failure surfaces only when migrateTo later
runs the step: the run fails with the invalid-migration error naming
that version (the message Migration must supply an up function in the
repository test) before invoking any migration function, with the
recorded version unchanged and the lock released. -/
theorem add_defers_up_validation (fuel : Nat)
    (reg : List MigrationDefinition) (d : MigrationDefinition)
    (h0 : d.version ≠ 0) (hfresh : hasVersion reg d.version = false)
    (hup : d.up = .missing ∨ d.up = .notFun) :
    add reg d = .ok (insertSorted d reg) ∧
    migrateTo (fuel + 1) [d] ⟨0, false⟩ .latest =
      ⟨⟨0, false⟩, [], 1, some (.invalidMigration .up d.version)⟩ := by
  constructor
  · rw [add, if_neg h0, hfresh]
    simp
  · have hpos : (0 : Nat) < d.version := by omega
    have hlat : latestVersion [d] = d.version := by simp [latestVersion]
    have hres : resolveSpec [d] .latest = .ok (d.version, false) := by
      rw [resolveSpec_latest, hlat]
    have hdec : decide ((0 : Nat) < d.version ∧ d.version ≤ d.version) =
        true := by simp [hpos]
    have hfil : ([d].filter fun x =>
        decide ((0 : Nat) < x.version ∧ x.version ≤ d.version)) = [d] := by
      simp only [List.filter, hdec]
    rw [migrateTo_succ, migrateToAux_up hres rfl hpos, hfil, runSteps]
    rcases hup with h | h
    · rw [runStep, show stepField .up d = .missing from h]
      rfl
    · rw [runStep, show stepField .up d = .notFun from h]
      rfl

/-- C8 witness: the concrete registration of the repository test - a
version 1 definition whose up is a string - is accepted by add, and the
following call targeting latest fails with the invalid-migration error
without invoking anything. -/
theorem add_defers_up_validation_witness :
    add [] cBadUp = .ok (insertSorted cBadUp []) ∧
    migrateTo 1 [cBadUp] ⟨0, false⟩ .latest =
      ⟨⟨0, false⟩, [], 1, some (.invalidMigration .up 1)⟩ :=
  add_defers_up_validation 0 [] cBadUp (by decide) rfl (Or.inr rfl)

/-! Argument-passing invariant: every invocation receives a registered
definition. -/

theorem execAct_arg {nested : Control → VersionSpec → Outcome}
    {reg : List MigrationDefinition}
    (hn : ∀ (c : Control) (s : VersionSpec) (e : Ev),
      e ∈ (nested c s).events → e.arg ∈ reg)
    {dir : Direction} {d : MigrationDefinition} {a : Act} {ctl : Control}
    (hd : d ∈ reg) :
    ∀ e ∈ (execAct nested dir d a ctl).events, e.arg ∈ reg := by
  intro e he
  cases a with
  | ok =>
    simp only [execAct, List.mem_singleton] at he
    subst he
    exact hd
  | throwErr msg =>
    simp only [execAct, List.mem_singleton] at he
    subst he
    exact hd
  | reenter s =>
    simp only [execAct, List.mem_cons] at he
    rcases he with rfl | he
    · exact hd
    · exact hn ctl s e he

theorem runStep_arg {nested : Control → VersionSpec → Outcome}
    {reg : List MigrationDefinition}
    (hn : ∀ (c : Control) (s : VersionSpec) (e : Ev),
      e ∈ (nested c s).events → e.arg ∈ reg)
    {dir : Direction} {d : MigrationDefinition} {ctl : Control}
    (hd : d ∈ reg) :
    ∀ e ∈ (runStep nested dir d ctl).events, e.arg ∈ reg := by
  intro e he
  cases hsf : stepField dir d with
  | missing => simp only [runStep, hsf] at he; simp at he
  | notFun => simp only [runStep, hsf] at he; simp at he
  | fn a =>
    simp only [runStep, hsf] at he
    exact execAct_arg hn hd e he

theorem runSteps_arg {nested : Control → VersionSpec → Outcome}
    {reg : List MigrationDefinition} {dir : Direction}
    (hn : ∀ (c : Control) (s : VersionSpec) (e : Ev),
      e ∈ (nested c s).events → e.arg ∈ reg) :
    ∀ (steps : List MigrationDefinition) (ctl : Control),
      (∀ d ∈ steps, d ∈ reg) →
      ∀ e ∈ (runSteps nested reg dir steps ctl).events, e.arg ∈ reg := by
  intro steps
  induction steps with
  | nil => intro ctl _ e he; simp [runSteps_nil] at he
  | cons d rest ih =>
    intro ctl hsub e he
    have hd : d ∈ reg := hsub d (List.mem_cons_self d rest)
    rw [runSteps] at he
    rcases herr : (runStep nested dir d ctl).err with - | err2
    · simp only [herr] at he
      rcases List.mem_append.mp he with he2 | he2
      · exact runStep_arg hn hd e he2
      · exact ih ⟨nextVersion reg dir d, true⟩
          (fun x hx => hsub x (List.mem_cons_of_mem d hx)) e he2
    · simp only [herr] at he
      exact runStep_arg hn hd e he

theorem migrateToAux_arg {nested : Control → VersionSpec → Outcome}
    {reg : List MigrationDefinition}
    (hn : ∀ (c : Control) (s : VersionSpec) (e : Ev),
      e ∈ (nested c s).events → e.arg ∈ reg) :
    ∀ (ctl : Control) (s : VersionSpec) (e : Ev),
      e ∈ (migrateToAux nested reg ctl s).events → e.arg ∈ reg := by
  intro ctl s e he
  cases hres : resolveSpec reg s with
  | error e2 =>
    simp only [migrateToAux, hres] at he
    simp at he
  | ok p =>
    obtain ⟨tgt, rr⟩ := p
    simp only [migrateToAux, hres] at he
    split at he
    · simp at he
    · split at he
      · simp at he
      · simp only [postRun] at he
        split at he
        · split at he
          · next d hfind =>
            exact runStep_arg hn (List.mem_of_find?_eq_some hfind) e he
          · simp at he
        · split at he
          · refine runSteps_arg hn _ _ ?_ e he
            intro x hx
            exact List.mem_of_mem_filter hx
          · refine runSteps_arg hn _ _ ?_ e he
            intro x hx
            rw [List.mem_reverse] at hx
            exact List.mem_of_mem_filter hx

/-- C9: every invocation event produced by migrateTo passes, as the
argument of the invoked up or down function, a definition that is a
member of the registry - the very MigrationDefinition value the caller
registered through add - and it is the definition of the step being
executed, the event being keyed by it. -/
theorem migrateTo_arg_registered :
    ∀ (fuel : Nat) (reg : List MigrationDefinition) (ctl : Control)
      (s : VersionSpec) (e : Ev),
      e ∈ (migrateTo fuel reg ctl s).events → e.arg ∈ reg := by
  intro fuel
  induction fuel with
  | zero => intro reg ctl s e he; simp [migrateTo] at he
  | succ n ih =>
    intro reg ctl s e he
    rw [migrateTo_succ] at he
    exact migrateToAux_arg (fun c s2 e2 he2 => ih reg c s2 e2 he2) ctl s e he

/-- C9 witness: in the concrete single-migration run the invoked up
function received the registered definition itself as its argument. -/
theorem migrateTo_arg_registered_witness :
    (Ev.mk .up cOk1).arg ∈ [cOk1] :=
  migrateTo_arg_registered 1 [cOk1] ⟨0, false⟩ .latest ⟨.up, cOk1⟩
    (by decide)
